import Mathlib

set_option autoImplicit false

/-!
Shallow embedding of the pdf2bib program (file `pdf2bib.py`).

Strings are modelled as `List Char` and the byte content handed to the DOI
scanner as `List Nat`.  The two record regexes of `BibEntry`
(`parts = @(?P<type>[\w\-]+)\{(?P<id>[\w\- ]+), (?P<args>.+)\}` and
`keys = (?P<key>[\w\-]+)=\{(?P<value>.+?)\}(, |$)`) are embedded as
deterministic matchers: every quantifier in them is followed by a character
that its class cannot contain, so regex backtracking collapses to
maximal-munch (`takeWhile`) for the greedy pieces, to a last-occurrence scan
for the greedy `.+` before the closing brace, and to a first-separator scan
for the lazy value.  Character classes follow the ASCII reading of `\w`.
-/

abbrev Str := List Char

/-- Converts a Lean string literal to the `List Char` model.  Only used to
build concrete inputs. -/
def strL (s : String) : Str := s.toList

/-- Models the regex class `\w` (ASCII): letters, digits and underscore. -/
def isWordChar (c : Char) : Bool := c.isAlphanum || decide (c = '_')

/-- Models the class `[\w\-]` used for the entry type and the field keys. -/
def isTypeChar (c : Char) : Bool := isWordChar c || decide (c = '-')

/-- Models the class `[\w\- ]` used for the entry key (`id` group). -/
def isIdChar (c : Char) : Bool := isTypeChar c || decide (c = ' ')

/-- Models the regex `.` metacharacter: any character except a newline. -/
def notNl (c : Char) : Bool := !decide (c = '\n')

/-- Models the tail `(?P<args>.+)\}` of the `parts` regex on the rest of the
current line: the greedy `.+` makes the match end at the last closing brace
of the line, and the captured body must be nonempty. -/
def argsOf (line : Str) : Option Str :=
  match line.reverse.dropWhile (fun c => !decide (c = '}')) with
  | [] => none
  | c :: tl => if c = '}' ∧ tl ≠ [] then some tl.reverse else none

/-- Models one anchored attempt of the `parts` regex
`@(?P<type>[\w\-]+)\{(?P<id>[\w\- ]+), (?P<args>.+)\}` at the start of the
given string, returning the three captured groups. -/
def partsMatchHere : Str → Option (Str × Str × Str)
  | [] => none
  | c :: rest =>
    if c = '@' then
      let t := rest.takeWhile isTypeChar
      if t = [] then none else
      match rest.dropWhile isTypeChar with
      | [] => none
      | c1 :: r2 =>
        if c1 = '{' then
          let k := r2.takeWhile isIdChar
          if k = [] then none else
          match r2.dropWhile isIdChar with
          | c2 :: c3 :: r4 =>
            if c2 = ',' ∧ c3 = ' ' then
              match argsOf (r4.takeWhile notNl) with
              | some a => some (t, k, a)
              | none => none
            else none
          | _ => none
        else none
    else none

/-- Models the scan of `Pattern.search`: try a match attempt at every
position from left to right and return the first success. -/
def scan1 {α β : Type} (f : List α → Option β) : List α → Option β
  | [] => none
  | c :: rest =>
    match f (c :: rest) with
    | some m => some m
    | none => scan1 f rest

/-- Models `BibEntry.parts.search`. -/
def partsSearch (s : Str) : Option (Str × Str × Str) := scan1 partsMatchHere s

/-- Models one anchored attempt of the lazy value piece
`\{(?P<value>.+?)\}(, |$)` after the opening brace: the shortest nonempty
newline-free prefix whose closing brace is followed by a comma-space
separator (consumed), the end of the string, or a final newline.
The first argument accumulates the value read so far, reversed. -/
def lazyVal : Str → Str → Option (Str × Str)
  | _, [] => none
  | acc, c :: tl =>
    if c = '\n' then none
    else if c = '}' ∧ acc ≠ [] then
      match tl with
      | [] => some (acc.reverse, [])
      | [c1] => if c1 = '\n' then some (acc.reverse, [c1]) else lazyVal (c :: acc) [c1]
      | c1 :: c2 :: tl2 =>
        if c1 = ',' ∧ c2 = ' ' then some (acc.reverse, tl2)
        else lazyVal (c :: acc) (c1 :: c2 :: tl2)
    else lazyVal (c :: acc) tl

/-- Models one anchored attempt of the `keys` regex
`(?P<key>[\w\-]+)=\{(?P<value>.+?)\}(, |$)`, returning the key, the value
and the rest of the string after the whole match. -/
def keyMatchHere (s : Str) : Option (Str × Str × Str) :=
  let k := s.takeWhile isTypeChar
  if k = [] then none else
  match s.dropWhile isTypeChar with
  | c1 :: c2 :: r =>
    if c1 = '=' ∧ c2 = '{' then
      match lazyVal [] r with
      | some (v, after) => some (k, v, after)
      | none => none
    else none
  | _ => none

/-- Models `BibEntry.keys.finditer`: scan left to right, and after each
match continue right after it.  The fuel argument bounds the number of
steps; each step consumes at least one character, so the length of the
scanned string is always enough fuel. -/
def keysIterAux : Nat → Str → List (Str × Str)
  | 0, _ => []
  | _ + 1, [] => []
  | fuel + 1, c :: rest =>
    match keyMatchHere (c :: rest) with
    | some (k, v, after) => (k, v) :: keysIterAux fuel after
    | none => keysIterAux fuel rest

/-- Models the full `finditer` pass over a string. -/
def keysFindIter (s : Str) : List (Str × Str) := keysIterAux s.length s

/-- Models assignment `d[k] = v` on a Python dict represented as an
insertion-ordered association list: an existing key keeps its position and
gets the new value, a new key is appended at the end. -/
def dictInsert (d : List (Str × Str)) (k v : Str) : List (Str × Str) :=
  if d.any (fun p => decide (p.1 = k)) then
    d.map (fun p => if p.1 = k then (k, v) else p)
  else d ++ [(k, v)]

/-- Models filling a fresh dict from a list of key-value pairs in order. -/
def buildDict (l : List (Str × Str)) : List (Str × Str) :=
  l.foldl (fun d p => dictInsert d p.1 p.2) []

/-- Models the `BibEntry` object: `type` and `id` are the captured groups,
`args` the field dict. -/
structure BibEntry where
  type : Str
  id : Str
  args : List (Str × Str)
deriving DecidableEq, Repr

/-- Models `BibEntry.__init__`: search the `parts` regex, then fill the
`args` dict from `keys.finditer` on the captured body.  A failed outer
search raises in the source (`match.group` on `None`), so no object is
produced: this is the `none` result. -/
def BibEntry.parse (entry : Str) : Option BibEntry :=
  match partsSearch entry with
  | none => none
  | some (t, i, a) => some ⟨t, i, buildDict (keysFindIter a)⟩

/-- Models one formatted field line `\n    {key}={{{value}}}`. -/
def fieldLine (k v : Str) : Str :=
  '\n' :: ' ' :: ' ' :: ' ' :: ' ' :: (k ++ '=' :: '{' :: (v ++ ['}']))

/-- Models `BibEntry.format`: the `@{type}{{{key},` header, then one line
per field whose key is not excluded, then the closing `\n}`. -/
def BibEntry.format (b : BibEntry) (exclude : List Str) : Str :=
  (b.args.foldl (fun acc p => if p.1 ∈ exclude then acc else acc ++ fieldLine p.1 p.2)
    ('@' :: (b.type ++ '{' :: (b.id ++ [',']))))
  ++ ['\n', '}']

/-- Models `BibEntry.add_arg`. -/
def BibEntry.add_arg (b : BibEntry) (k v : Str) : BibEntry :=
  { b with args := dictInsert b.args k v }

/-- Models the regex class `\d` on bytes: ASCII digits. -/
def isDigitB (b : Nat) : Bool := 48 ≤ b && b ≤ 57

/-- Models the regex class `\w` on bytes: ASCII letters, digits, underscore. -/
def isWordB (b : Nat) : Bool :=
  isDigitB b || (65 ≤ b && b ≤ 90) || (97 ≤ b && b ≤ 122) || decide (b = 95)

/-- Models the class `[\w\-\.]` of the DOI suffix. -/
def isDoiTailB (b : Nat) : Bool := isWordB b || decide (b = 45) || decide (b = 46)

/-- Models the `.` metacharacter on bytes: any byte except the newline 10.
The third byte of the pattern `10.\d{4}/[\w\-\.]+` is this wildcard, not a
literal dot. -/
def isDotB (b : Nat) : Bool := !decide (b = 10)

/-- Models one anchored attempt of `PDFParser.doi_regex`
(`10.\d{4}/[\w\-\.]+` compiled on bytes) at the start of the byte list,
returning the whole match (`match.group()`).  The final `+` is greedy and
last in the pattern, so it takes the maximal run. -/
def doiMatchHere : List Nat → Option (List Nat)
  | b1 :: b2 :: c :: d1 :: d2 :: d3 :: d4 :: sl :: rest =>
    if b1 = 49 ∧ b2 = 48 ∧ isDotB c = true ∧ isDigitB d1 = true ∧ isDigitB d2 = true ∧
        isDigitB d3 = true ∧ isDigitB d4 = true ∧ sl = 47 then
      let run := rest.takeWhile isDoiTailB
      if run = [] then none
      else some (b1 :: b2 :: c :: d1 :: d2 :: d3 :: d4 :: sl :: run)
    else none
  | _ => none

/-- Models `PDFParser.doi_regex.search(out)` followed by `match.group()`
inside `PDFParser.get_doi`: the first (leftmost) match of the DOI pattern
in the extracted byte content, or `none`. -/
def doiSearch (s : List Nat) : Option (List Nat) := scan1 doiMatchHere s

/-- Shape of a token the compiled DOI regex can produce, as a standalone
predicate on the token itself: the bytes of `1`, `0`, then one arbitrary
non-newline byte, then exactly four digits, a slash, and a nonempty run of
word, hyphen or dot bytes. -/
def tokenShape (m : List Nat) : Bool :=
  match m with
  | b1 :: b2 :: c :: d1 :: d2 :: d3 :: d4 :: sl :: rest =>
    decide (b1 = 49) && decide (b2 = 48) && isDotB c && isDigitB d1 && isDigitB d2 &&
      isDigitB d3 && isDigitB d4 && decide (sl = 47) && !rest.isEmpty && rest.all isDoiTailB
  | _ => false

/-- Tells whether a match of the compiled DOI pattern starts at position
`i` of the content. -/
def shapeStartB (s : List Nat) (i : Nat) : Bool :=
  match s.drop i with
  | b1 :: b2 :: c :: d1 :: d2 :: d3 :: d4 :: sl :: x :: _ =>
    decide (b1 = 49) && decide (b2 = 48) && isDotB c && isDigitB d1 && isDigitB d2 &&
      isDigitB d3 && isDigitB d4 && decide (sl = 47) && isDoiTailB x
  | _ => false

/-- Follows the words of the spec for the DOI token shape: the literal
prefix `10.` (so a literal dot byte 46), then exactly four digits, a slash
and at least one word, hyphen or dot byte.  Stated as: such a substring
starts at position `i`.  This is the spec-side shape, kept separate from
the code-side `shapeStartB` to compare the two. -/
def specDoiStart (s : List Nat) (i : Nat) : Bool :=
  match s.drop i with
  | b1 :: b2 :: c :: d1 :: d2 :: d3 :: d4 :: sl :: x :: _ =>
    decide (b1 = 49) && decide (b2 = 48) && decide (c = 46) && isDigitB d1 && isDigitB d2 &&
      isDigitB d3 && isDigitB d4 && decide (sl = 47) && isDoiTailB x
  | _ => false

/-- Tells whether some substring of the content matches the spec-side DOI
shape. -/
def hasSpecDoiSub (s : List Nat) : Bool :=
  (List.range s.length).any (fun i => specDoiStart s i)

/-- Models `os.path.flatten` for a directory and a file name (posix rules
restricted to what the program exercises). -/
def pathJoin (d f : Str) : Str :=
  if f.head? = some '/' then f
  else if d = [] then f
  else if d.getLast? = some '/' then d ++ f
  else d ++ '/' :: f

/-- Models `path.strip(String.quote-char)` in `PDFParser.which`: removes
double-quote characters from both ends. -/
def stripQuotes (s : Str) : Str :=
  ((s.dropWhile (fun c => decide (c = '"'))).reverse.dropWhile (fun c => decide (c = '"'))).reverse

/-- Models `str.split(sep)` of Python for a one-character separator:
splitting keeps empty pieces, and the empty string splits to one empty
piece. -/
def splitSep (sep : Char) : Str → List Str
  | [] => [[]]
  | c :: rest =>
    match splitSep sep rest with
    | [] => [[c]]
    | h :: t => if c = sep then [] :: h :: t else (c :: h) :: t

/-- Models `args.exclude.split(String.comma)`. -/
def splitComma (s : Str) : List Str := splitSep ',' s

/-- Models the loop of `PDFParser.which` over the directories of the
search path: the first directory whose joined candidate is an executable
regular file wins. -/
def firstExe (isExe : Str → Bool) (prog : Str) : List Str → Option Str
  | [] => none
  | d :: rest =>
    let exe := pathJoin (stripQuotes d) prog
    if isExe exe then some exe else firstExe isExe prog rest

/-- Models `PDFParser.which`.  The predicate `isExe` stands for
`os.path.isfile` together with `os.access(.., os.X_OK)`; `pathVar` is the
value of the `PATH` environment variable, split on the path separator
inside. -/
def which (isExe : Str → Bool) (pathVar : Str) (program : Str) : Option Str :=
  if program.contains '/' then
    if isExe program then some program else none
  else firstExe isExe program (splitSep ':' pathVar)

/-- Models the `PDFParser.converters` tuple, in its fixed preference
order. -/
def converters : List (List Str) :=
  [ [strL "pdftotext", strL "-l", strL "1", strL "\x7bpdf\x7d", strL "-"],
    [strL "pdftohtml", strL "-stdout", strL "-i", strL "-l", strL "1", strL "\x7bpdf\x7d"] ]

/-- Models the loop of `PDFParser.__init__` over the converter
descriptors: the first one whose program resolves to a truthy (nonempty)
location is selected, with its first element rewritten to that location. -/
def initGo (isExe : Str → Bool) (pathVar : Str) : List (List Str) → Option (List Str)
  | [] => none
  | c :: rest =>
    match which isExe pathVar (c.headD []) with
    | some loc => if loc = [] then initGo isExe pathVar rest else some (loc :: c.tail)
    | none => initGo isExe pathVar rest

/-- Models `PDFParser.__init__`: `none` is the raised exception when no
converter is found. -/
def pdfParserInit (isExe : Str → Bool) (pathVar : Str) : Option (List Str) :=
  initGo isExe pathVar converters

/-- Console messages printed by the per-file loop of `main`. -/
inductive Msg where
  | analyzing (f : Str)
  | foundDoi (d : List Nat)
  | fetching
  | wroteEntry
  | noDoi
deriving DecidableEq, Repr

/-- Observable state of `main`: the strings written to the output sink and
the console messages, in order. -/
structure OutState where
  writes : List Str
  console : List Msg
deriving DecidableEq, Repr

/-- External effects used by the per-file loop: DOI extraction for a file
(an `error` is a failure to run the converter subprocess) and the remote
bibtex lookup (an `error` is a transport failure of `urlopen`). -/
structure Effects where
  getDoi : Str → Except Str (Option (List Nat))
  getBibtex : List Nat → Except Str Str

/-- Error raised by `location.tolower()`: `str` has no such method. -/
def tolowerMsg : Str := strL "AttributeError: tolower"

/-- Error raised by `args.exclude.split` when `args.exclude` is `None`. -/
def noneSplitMsg : Str := strL "AttributeError: split on None"

/-- Error raised inside `BibEntry.__init__` when the outer regex does not
match: `match.group` on `None`. -/
def malformedMsg : Str := strL "AttributeError: group on None"

/-- Error raised by `PDFParser.__init__` when no converter exists. -/
def noConverterMsg : Str := strL "Exception: no converter"

/-- Key of the provenance field attached by `main`. -/
def fileKey : Str := strL "file"

/-- Separator written after every record. -/
def blankSep : Str := strL "\n\n"

/-- Models the body of the per-file loop of `main` (lines 176 to 188): the
analysis message, DOI extraction, and on success the fetch, parse,
provenance field, exclusion split and the two writes.  There is no
exception handler in the source, so every raised error short-circuits as
an `Except.error`. -/
def processFile (eff : Effects) (exclude : Option Str) (st : OutState) (file : Str) :
    Except Str OutState :=
  let st1 : OutState := { st with console := st.console ++ [Msg.analyzing file] }
  match eff.getDoi file with
  | .error e => .error e
  | .ok none => .ok { st1 with console := st1.console ++ [Msg.noDoi] }
  | .ok (some d) =>
    let st2 : OutState := { st1 with console := st1.console ++ [Msg.foundDoi d, Msg.fetching] }
    match eff.getBibtex d with
    | .error e => .error e
    | .ok txt =>
      match BibEntry.parse txt with
      | none => .error malformedMsg
      | some b =>
        let b2 := b.add_arg fileKey file
        match exclude with
        | none => .error noneSplitMsg
        | some ex =>
          .ok { st2 with
                writes := st2.writes ++ [b2.format (splitComma ex), blankSep],
                console := st2.console ++ [Msg.wroteEntry] }

/-- Models the per-file loop of `main` over the gathered files. -/
def mainLoop (eff : Effects) (excl : Option Str) : OutState → List Str → Except Str OutState
  | st, [] => .ok st
  | st, f :: fs =>
    match processFile eff excl st f with
    | .error e => .error e
    | .ok st' => mainLoop eff excl st' fs

/-- Models the `in` substring test of Python strings. -/
def containsSub (pat : Str) : Str → Bool
  | [] => pat.isEmpty
  | c :: rest => pat.isPrefixOf (c :: rest) || containsSub pat rest

/-- Pattern looked for in candidate file names. -/
def pdfPat : Str := strL ".pdf"

/-- File-system view used by the gathering step of `main`: which locations
are regular files, which are directories, and the `os.walk` listing of a
directory as directory-path and file-name pairs. -/
structure FSEnv where
  isFile : Str → Bool
  isDir : Str → Bool
  walk : Str → List (Str × List Str)

/-- Models the file-gathering loop of `main` (lines 166 to 173).  For a
location that is a regular file the source evaluates `location.tolower()`,
a method `str` does not have, so an `AttributeError` is raised; a
directory is walked and the file names containing `.pdf` are joined to
their directory path. -/
def gather (fs : FSEnv) : List Str → Except Str (List Str)
  | [] => .ok []
  | loc :: rest =>
    if fs.isFile loc then .error tolowerMsg
    else if fs.isDir loc then
      match gather fs rest with
      | .error e => .error e
      | .ok more =>
        .ok (((fs.walk loc).foldl (fun acc pr =>
          acc ++ (pr.2.filter (fun f => containsSub pdfPat f)).map (fun f => pathJoin pr.1 f))
          []) ++ more)
    else gather fs rest

/-- Models `main`: construct the parser (converter discovery), gather the
files, then run the per-file loop on an initially empty output state. -/
def mainRun (isExe : Str → Bool) (pathVar : Str) (fs : FSEnv) (eff : Effects)
    (excl : Option Str) (locs : List Str) : Except Str OutState :=
  match pdfParserInit isExe pathVar with
  | none => .error noConverterMsg
  | some _ =>
    match gather fs locs with
    | .error e => .error e
    | .ok files => mainLoop eff excl ⟨[], []⟩ files

/-- Models one `key=value-in-braces` field of the record grammar of the
spec. -/
def mkField (k v : Str) : Str := k ++ '=' :: '{' :: (v ++ ['}'])

/-- Joins pieces with the comma-space separator of the record grammar. -/
def sepJoin : List Str → Str
  | [] => []
  | [x] => x
  | x :: y :: tl => x ++ ',' :: ' ' :: sepJoin (y :: tl)

/-- Follows the words of the spec (section 4.1): a single-line text record
of the grammar `@<type>{<key>, <field>=<value>, ...}`.  This is the
spec-side canonical record used to state which records the parser
accepts. -/
def grammarRecord (t k : Str) (fs : List (Str × Str)) : Str :=
  '@' :: (t ++ '{' :: (k ++ ',' :: ' ' ::
    (sepJoin (fs.map (fun p => mkField p.1 p.2)) ++ ['}'])))

/-- Converts a Lean string to the byte-list model of extracted content. -/
def bytesOf (s : String) : List Nat := s.toList.map Char.toNat

/-- Concrete single-line record used in counterexamples and witnesses. -/
def exRec1 : Str := strL "@a\x7bk, t=\x7bX\x7d\x7d"

/-- The record that `exRec1` parses to. -/
def recOne : BibEntry := ⟨strL "a", strL "k", [(strL "t", strL "X")]⟩

/-- Concrete record with a multi-line field value. -/
def exMultiline : Str := strL "@article\x7bk, title=\x7bA\nB\x7d\x7d"

/-- Concrete record whose field value contains a closing brace followed by
comma-space. -/
def exNestedSep : Str := strL "@a\x7bk, t=\x7b\x7bA\x7d, \x7bB\x7d\x7d\x7d"

/-- Concrete byte content with two DOI-pattern matches. -/
def exDoiTwo : List Nat := bytesOf "x 10.1111/ab 10.2222/cd"

/-- The first DOI-pattern match of `exDoiTwo`, starting at position 2. -/
def tokFirstDoi : List Nat := bytesOf "10.1111/ab"

/-- Concrete byte content whose only DOI-pattern match has a byte other
than a dot after `10`. -/
def exDoiWild : List Nat := bytesOf "zz 10X1234/abc"

/-- The token the scanner returns on `exDoiWild`. -/
def tokWildDoi : List Nat := bytesOf "10X1234/abc"

/-- Concrete executable-search environment: the first-preference converter
is present in the first directory and the second-preference converter in
the second one. -/
def isExeEx : Str → Bool := fun s =>
  decide (s = strL "/usr/bin/pdftotext") || decide (s = strL "/bin/pdftohtml")

/-- Concrete `PATH` value for the `which` witnesses. -/
def pvEx : Str := strL "/usr/bin:/bin"

/-- Concrete file names for the orchestration counterexamples. -/
def fileA : Str := strL "a.pdf"

/-- Second concrete file name. -/
def fileB : Str := strL "b.pdf"

/-- Concrete DOI bytes for the orchestration counterexamples. -/
def doiA : List Nat := bytesOf "10.1111/aa"

/-- Error message of the failing lookup in the counterexample effects. -/
def lookupFailMsg : Str := strL "URLError"

/-- Effects where extraction always finds a DOI and every lookup fails. -/
def effLookupFail : Effects :=
  ⟨fun _ => .ok (some doiA), fun _ => .error lookupFailMsg⟩

/-- Effects where extraction always finds a DOI and the lookup returns the
record `exRec1`. -/
def effOk : Effects := ⟨fun _ => .ok (some doiA), fun _ => .ok exRec1⟩

/-- Concrete record with two fields, for the formatting witnesses. -/
def recTwo : BibEntry :=
  ⟨strL "a", strL "k", [(strL "t", strL "X"), (strL "y", strL "2")]⟩

/-- Concrete file-system view whose single location is a regular file. -/
def fsFileEx : FSEnv := ⟨fun s => decide (s = strL "paper.pdf"), fun _ => false, fun _ => []⟩

/-! Helper lemmas about the position scan of `Pattern.search`. -/

theorem scan1_nil {α β : Type} (f : List α → Option β) : scan1 f [] = none := rfl

theorem scan1_none_iff {α β : Type} (f : List α → Option β) (hnil : f [] = none) :
    ∀ s : List α, scan1 f s = none ↔ ∀ i, f (s.drop i) = none := by
  intro s
  induction s with
  | nil => simp [scan1, hnil]
  | cons c rest ih =>
    cases h : f (c :: rest) with
    | some m =>
      simp only [scan1, h]
      constructor
      · intro hc; cases hc
      · intro hall; have h0 := hall 0; simp only [List.drop_zero] at h0
        rw [h0] at h; cases h
    | none =>
      simp only [scan1, h]
      rw [ih]
      constructor
      · intro hall i
        cases i with
        | zero => simpa using h
        | succ j => simpa [List.drop_succ_cons] using hall j
      · intro hall i
        have hi := hall (i + 1)
        simpa [List.drop_succ_cons] using hi

theorem scan1_first {α β : Type} (f : List α → Option β) (hnil : f [] = none) :
    ∀ (s : List α) (i : Nat) (m : β), (∀ j, j < i → f (s.drop j) = none) →
      f (s.drop i) = some m → scan1 f s = some m := by
  intro s
  induction s with
  | nil =>
    intro i m _ hm
    rw [List.drop_nil, hnil] at hm; cases hm
  | cons c rest ih =>
    intro i m hlt hm
    cases i with
    | zero =>
      simp only [List.drop_zero] at hm
      simp [scan1, hm]
    | succ j =>
      have h0 : f (c :: rest) = none := by simpa using hlt 0 (Nat.succ_pos j)
      simp only [scan1, h0]
      refine ih j m (fun j2 hj2 => ?_) (by simpa [List.drop_succ_cons] using hm)
      have := hlt (j2 + 1) (Nat.succ_lt_succ hj2)
      simpa [List.drop_succ_cons] using this

theorem scan1_some_ex {α β : Type} (f : List α → Option β) :
    ∀ (s : List α) (m : β), scan1 f s = some m → ∃ i, f (s.drop i) = some m := by
  intro s
  induction s with
  | nil => intro m h; simp [scan1] at h
  | cons c rest ih =>
    intro m h
    cases hf : f (c :: rest) with
    | some m2 =>
      simp only [scan1, hf] at h
      exact ⟨0, by simp [hf, h]⟩
    | none =>
      simp only [scan1, hf] at h
      obtain ⟨i, hi⟩ := ih m h
      exact ⟨i + 1, by simpa [List.drop_succ_cons] using hi⟩

/-! Helper lemmas about `takeWhile` and `dropWhile` on concatenations. -/

theorem takeWhile_all {α : Type} (p : α → Bool) :
    ∀ l : List α, (∀ c ∈ l, p c = true) → l.takeWhile p = l := by
  intro l
  induction l with
  | nil => intro; rfl
  | cons a l ih =>
    intro h
    simp [List.takeWhile_cons, h a (List.mem_cons_self a l),
      ih (fun c hc => h c (List.mem_cons_of_mem a hc))]

theorem takeWhile_append_cons {α : Type} (p : α → Bool) :
    ∀ (l1 : List α) (a : α) (l2 : List α), (∀ c ∈ l1, p c = true) → p a = false →
      (l1 ++ a :: l2).takeWhile p = l1 := by
  intro l1
  induction l1 with
  | nil => intro a l2 _ ha; simp [List.takeWhile_cons, ha]
  | cons x l ih =>
    intro a l2 h ha
    have hx := h x (List.mem_cons_self x l)
    simp [List.takeWhile_cons, hx, ih a l2 (fun c hc => h c (List.mem_cons_of_mem x hc)) ha]

theorem dropWhile_append_cons {α : Type} (p : α → Bool) :
    ∀ (l1 : List α) (a : α) (l2 : List α), (∀ c ∈ l1, p c = true) → p a = false →
      (l1 ++ a :: l2).dropWhile p = a :: l2 := by
  intro l1
  induction l1 with
  | nil => intro a l2 _ ha; simp [List.dropWhile_cons, ha]
  | cons x l ih =>
    intro a l2 h ha
    have hx := h x (List.mem_cons_self x l)
    simp [List.dropWhile_cons, hx, ih a l2 (fun c hc => h c (List.mem_cons_of_mem x hc)) ha]

/-! Character class facts and the computation of the outer matcher on a
structured record string. -/

theorem class_ne {c a : Char} {p : Char → Bool} (h : p c = true) (ha : p a = false) :
    ¬ c = a := by
  intro he
  rw [he, ha] at h
  cases h

theorem partsMatchHere_split (T K rest2 : Str)
    (hT : ∀ c ∈ T, isTypeChar c = true) (hK : ∀ c ∈ K, isIdChar c = true) :
    partsMatchHere ('@' :: (T ++ '{' :: (K ++ ',' :: rest2)))
      = if T = [] then none
        else if K = [] then none
        else
          match rest2 with
          | c3 :: r4 =>
            if c3 = ' ' then
              match argsOf (r4.takeWhile notNl) with
              | some a => some (T, K, a)
              | none => none
            else none
          | [] => none := by
  have h1 : (T ++ '{' :: (K ++ ',' :: rest2)).takeWhile isTypeChar = T :=
    takeWhile_append_cons isTypeChar T '{' _ hT (by decide)
  have h2 : (T ++ '{' :: (K ++ ',' :: rest2)).dropWhile isTypeChar = '{' :: (K ++ ',' :: rest2) :=
    dropWhile_append_cons isTypeChar T '{' _ hT (by decide)
  have h3 : (K ++ ',' :: rest2).takeWhile isIdChar = K :=
    takeWhile_append_cons isIdChar K ',' _ hK (by decide)
  have h4 : (K ++ ',' :: rest2).dropWhile isIdChar = ',' :: rest2 :=
    dropWhile_append_cons isIdChar K ',' _ hK (by decide)
  cases rest2 with
  | nil => simp only [partsMatchHere, h1, h2, h3, h4]; simp
  | cons c3 r4 => simp only [partsMatchHere, h1, h2, h3, h4]; simp

theorem partsMatchHere_groups :
    ∀ (s T K A : Str), partsMatchHere s = some (T, K, A) →
      (T ≠ [] ∧ ∀ c ∈ T, isTypeChar c = true) ∧ (K ≠ [] ∧ ∀ c ∈ K, isIdChar c = true) := by
  intro s T K A h
  cases s with
  | nil => cases h
  | cons c rest =>
    simp only [partsMatchHere] at h
    repeat' split at h
    all_goals try cases h
    refine ⟨⟨fun hnil => absurd hnil (by assumption), fun c hc => List.mem_takeWhile_imp hc⟩,
      ⟨fun hnil => absurd hnil (by assumption), fun c hc => List.mem_takeWhile_imp hc⟩⟩

theorem keyMatchHere_key :
    ∀ (s K V A : Str), keyMatchHere s = some (K, V, A) →
      K ≠ [] ∧ ∀ c ∈ K, isTypeChar c = true := by
  intro s K V A h
  simp only [keyMatchHere] at h
  repeat' split at h
  all_goals try cases h
  exact ⟨fun hnil => absurd hnil (by assumption), fun c hc => List.mem_takeWhile_imp hc⟩

theorem keysIterAux_keys :
    ∀ (fuel : Nat) (s : Str) (p : Str × Str), p ∈ keysIterAux fuel s →
      p.1 ≠ [] ∧ ∀ c ∈ p.1, isTypeChar c = true := by
  intro fuel
  induction fuel with
  | zero => intro s p hp; simp [keysIterAux] at hp
  | succ n ih =>
    intro s p hp
    cases s with
    | nil => simp [keysIterAux] at hp
    | cons c rest =>
      simp only [keysIterAux] at hp
      cases hk : keyMatchHere (c :: rest) with
      | some kva =>
        obtain ⟨k, v, a⟩ := kva
        rw [hk] at hp
        simp only [List.mem_cons] at hp
        rcases hp with rfl | hp
        · exact keyMatchHere_key _ k v a hk
        · exact ih a p hp
      | none =>
        rw [hk] at hp
        exact ih rest p hp

theorem mem_dictInsert (d : List (Str × Str)) (k v : Str) (p : Str × Str)
    (hp : p ∈ dictInsert d k v) : p = (k, v) ∨ p ∈ d := by
  simp only [dictInsert] at hp
  split at hp
  · obtain ⟨q, hq, he⟩ := List.mem_map.mp hp
    by_cases hqk : q.1 = k
    · rw [if_pos hqk] at he
      exact Or.inl he.symm
    · rw [if_neg hqk] at he
      exact Or.inr (he ▸ hq)
  · rcases List.mem_append.mp hp with h | h
    · exact Or.inr h
    · simp only [List.mem_singleton] at h
      exact Or.inl h

theorem mem_foldl_dictInsert :
    ∀ (l : List (Str × Str)) (d : List (Str × Str)) (p : Str × Str),
      p ∈ l.foldl (fun d q => dictInsert d q.1 q.2) d → p ∈ d ∨ p ∈ l := by
  intro l
  induction l with
  | nil => intro d p hp; exact Or.inl hp
  | cons q l ih =>
    intro d p hp
    simp only [List.foldl_cons] at hp
    rcases ih _ p hp with h | h
    · rcases mem_dictInsert d q.1 q.2 p h with h1 | h1
      · exact Or.inr (by rw [h1]; exact List.mem_cons_self q l)
      · exact Or.inl h1
    · exact Or.inr (List.mem_cons_of_mem q h)

theorem mem_buildDict (l : List (Str × Str)) (p : Str × Str) (hp : p ∈ buildDict l) :
    p ∈ l := by
  rcases mem_foldl_dictInsert l [] p hp with h | h
  · cases h
  · exact h

theorem parse_inv (s : Str) (b : BibEntry) (h : BibEntry.parse s = some b) :
    (b.type ≠ [] ∧ ∀ c ∈ b.type, isTypeChar c = true) ∧
    (b.id ≠ [] ∧ ∀ c ∈ b.id, isIdChar c = true) ∧
    (∀ p ∈ b.args, p.1 ≠ [] ∧ ∀ c ∈ p.1, isTypeChar c = true) := by
  simp only [BibEntry.parse] at h
  cases hps : partsSearch s with
  | none => rw [hps] at h; cases h
  | some g =>
    obtain ⟨T, K, A⟩ := g
    rw [hps] at h
    cases h
    obtain ⟨i, hi⟩ := scan1_some_ex partsMatchHere s (T, K, A) hps
    have hg := partsMatchHere_groups _ T K A hi
    exact ⟨hg.1, hg.2, fun p hp =>
      keysIterAux_keys _ _ p (mem_buildDict _ p hp)⟩

/-! Structure of the output of `BibEntry.format`. -/

theorem format_fold (E : List Str) :
    ∀ (l : List (Str × Str)) (acc : Str),
      l.foldl (fun acc p => if p.1 ∈ E then acc else acc ++ fieldLine p.1 p.2) acc
        = acc ++ ((l.filter (fun p => decide (¬ p.1 ∈ E))).map (fun p => fieldLine p.1 p.2)).flatten := by
  intro l
  induction l with
  | nil => intro acc; simp
  | cons q l ih =>
    intro acc
    simp only [List.foldl_cons]
    by_cases hq : q.1 ∈ E
    · rw [if_pos hq, ih]
      simp [List.filter_cons, hq]
    · rw [if_neg hq, ih]
      simp [List.filter_cons, hq, List.append_assoc]

theorem format_eq (b : BibEntry) (E : List Str) :
    b.format E = '@' :: (b.type ++ '{' :: (b.id ++ ',' ::
      (((b.args.filter (fun p => decide (¬ p.1 ∈ E))).map (fun p => fieldLine p.1 p.2)).flatten
        ++ ['\n', '}']))) := by
  simp only [BibEntry.format, format_fold E b.args]
  simp [List.append_assoc]

theorem mem_fieldLine (k v : Str) (c : Char) (hc : c ∈ fieldLine k v) :
    c = '\n' ∨ c = ' ' ∨ c ∈ k ∨ c = '=' ∨ c = '{' ∨ c ∈ v ∨ c = '}' := by
  simp only [fieldLine, List.mem_cons, List.mem_append, List.mem_singleton] at hc
  tauto

theorem mem_flatten_fieldLines (l : List (Str × Str)) (c : Char)
    (hc : c ∈ (l.map (fun p => fieldLine p.1 p.2)).flatten) :
    ∃ p ∈ l, c ∈ fieldLine p.1 p.2 := by
  rw [List.mem_flatten] at hc
  obtain ⟨x, hx, hcx⟩ := hc
  obtain ⟨p, hp, rfl⟩ := List.mem_map.mp hx
  exact ⟨p, hp, hcx⟩

theorem flatten_fieldLines_shape (l : List (Str × Str)) :
    (l.map (fun p => fieldLine p.1 p.2)).flatten = [] ∨
      ∃ r, (l.map (fun p => fieldLine p.1 p.2)).flatten = '\n' :: r := by
  cases l with
  | nil => exact Or.inl rfl
  | cons p l => exact Or.inr ⟨_, rfl⟩

theorem partsMatchHere_not_at {c : Char} (rest : Str) (h : ¬ c = '@') :
    partsMatchHere (c :: rest) = none := by
  simp [partsMatchHere, h]

theorem partsSearch_none_of_noAt :
    ∀ s : Str, (∀ c ∈ s, ¬ c = '@') → partsSearch s = none := by
  intro s
  induction s with
  | nil => intro _; rfl
  | cons c rest ih =>
    intro h
    have hc : partsMatchHere (c :: rest) = none :=
      partsMatchHere_not_at rest (h c (List.mem_cons_self c rest))
    simp only [partsSearch, scan1, hc]
    exact ih (fun c2 hc2 => h c2 (List.mem_cons_of_mem c hc2))

/-- C1 (corrected): formatting a freshly parsed record with the empty
exclusion set and re-parsing the formatted string fails to produce any
record, whenever no field value contains the `@` character.  The formatter
writes a newline right after the comma that follows the entry key and
newline-separated field lines, while the outer grammar of the parser
requires a comma-space and a single-line body, so the outer match fails at
the head, and no later position of the formatted string starts with `@`. -/
theorem c1_round_trip_amended (s : Str) (b : BibEntry)
    (hp : BibEntry.parse s = some b)
    (hv : ∀ p ∈ b.args, ¬ '@' ∈ p.2) :
    BibEntry.parse (b.format []) = none := by
  obtain ⟨⟨_, hT⟩, ⟨_, hK⟩, hkeys⟩ := parse_inv s b hp
  rw [format_eq]
  simp only [BibEntry.parse]
  have hnoAt : ∀ c ∈ (b.type ++ '{' :: (b.id ++ ',' ::
      (((b.args.filter (fun p => decide (¬ p.1 ∈ ([] : List Str)))).map
        (fun p => fieldLine p.1 p.2)).flatten ++ ['\n', '}']))), ¬ c = '@' := by
    intro c hc he
    subst he
    simp only [List.mem_append, List.mem_cons, List.mem_singleton] at hc
    rcases hc with h | h | h | h | h | h | h
    · exact absurd (hT _ h) (by decide)
    · exact absurd h (by decide)
    · exact absurd (hK _ h) (by decide)
    · exact absurd h (by decide)
    · obtain ⟨p, hpf, hcp⟩ := mem_flatten_fieldLines _ _ h
      have hpargs : p ∈ b.args := List.mem_of_mem_filter hpf
      rcases mem_fieldLine _ _ _ hcp with h1 | h1 | h1 | h1 | h1 | h1 | h1
      · exact absurd h1 (by decide)
      · exact absurd h1 (by decide)
      · exact absurd ((hkeys p hpargs).2 _ h1) (by decide)
      · exact absurd h1 (by decide)
      · exact absurd h1 (by decide)
      · exact hv p hpargs h1
      · exact absurd h1 (by decide)
    · exact absurd h (by decide)
    · exact absurd h (by decide)
  have hhead : partsMatchHere ('@' :: (b.type ++ '{' :: (b.id ++ ',' ::
      (((b.args.filter (fun p => decide (¬ p.1 ∈ ([] : List Str)))).map
        (fun p => fieldLine p.1 p.2)).flatten ++ ['\n', '}'])))) = none := by
    rw [partsMatchHere_split b.type b.id _ hT hK]
    rcases flatten_fieldLines_shape (b.args.filter (fun p => decide (¬ p.1 ∈ ([] : List Str))))
      with hJ | ⟨r, hJ⟩
    · rw [hJ]
      simp only [List.nil_append]
      split_ifs <;> first | rfl | exact absurd ‹('\n' : Char) = ' '› (by decide)
    · rw [hJ]
      simp only [List.cons_append]
      split_ifs <;> first | rfl | exact absurd ‹('\n' : Char) = ' '› (by decide)
  have hps : partsSearch ('@' :: (b.type ++ '{' :: (b.id ++ ',' ::
      (((b.args.filter (fun p => decide (¬ p.1 ∈ ([] : List Str)))).map
        (fun p => fieldLine p.1 p.2)).flatten ++ ['\n', '}'])))) = none := by
    simp only [partsSearch, scan1, hhead]
    exact partsSearch_none_of_noAt _ hnoAt
  rw [hps]

/-- C1 counterexample: the record string `@a{k, t={X}}` parses, formatting
the parsed record with the empty exclusion set and re-parsing the result
fails, so the round-trip law does not reproduce the entry at this input. -/
theorem c1_round_trip_counterexample :
    BibEntry.parse exRec1 = some recOne ∧ BibEntry.parse (recOne.format []) = none := by
  decide

/-- C1 witness: the amended theorem applied to the record parsed from
`exRec1`. -/
theorem c1_round_trip_witness : BibEntry.parse (recOne.format []) = none :=
  c1_round_trip_amended exRec1 recOne (by decide) (by decide)

/-- C6 (confirmed): parsing fails, producing no record at all, exactly
when no position of the input matches the outer record grammar; in the
source the raised `AttributeError` aborts `BibEntry.__init__` before any
attribute is assigned, so no partial record is observable. -/
theorem c6_malformed_rejected (s : Str) :
    BibEntry.parse s = none ↔ ∀ i, partsMatchHere (s.drop i) = none := by
  constructor
  · intro h
    simp only [BibEntry.parse] at h
    cases hps : partsSearch s with
    | none => exact (scan1_none_iff partsMatchHere rfl s).mp hps
    | some g =>
      obtain ⟨T, K, A⟩ := g
      rw [hps] at h
      cases h
  · intro h
    have hps : partsSearch s = none := (scan1_none_iff partsMatchHere rfl s).mpr h
    simp [BibEntry.parse, hps]

/-- C4 (confirmed): the formatted record is exactly the header, one field
line for every non-excluded field in order, and the closing brace; every
field kept by the exclusion filter has a key outside the exclusion list,
and every field of the record whose key is not excluded contributes
exactly one field line. -/
theorem c4_format_excludes (b : BibEntry) (E : List Str)
    (hnd : (b.args.map Prod.fst).Nodup) :
    b.format E = '@' :: (b.type ++ '{' :: (b.id ++ ',' ::
        (((b.args.filter (fun p => decide (¬ p.1 ∈ E))).map (fun p => fieldLine p.1 p.2)).flatten
          ++ ['\n', '}']))) ∧
    (∀ p ∈ b.args.filter (fun p => decide (¬ p.1 ∈ E)), ¬ p.1 ∈ E) ∧
    (∀ p ∈ b.args, ¬ p.1 ∈ E →
      ((b.args.filter (fun p => decide (¬ p.1 ∈ E))).map Prod.fst).countP
        (fun k => decide (k = p.1)) = 1) := by
  refine ⟨format_eq b E, ?_, ?_⟩
  · intro p hp
    have h2 := (List.mem_filter.mp hp).2
    simpa using h2
  · intro p hp hpe
    have hmem : p ∈ b.args.filter (fun p => decide (¬ p.1 ∈ E)) :=
      List.mem_filter.mpr ⟨hp, by simpa using hpe⟩
    have hmem2 : p.1 ∈ (b.args.filter (fun p => decide (¬ p.1 ∈ E))).map Prod.fst :=
      List.mem_map.mpr ⟨p, hmem, rfl⟩
    have hsub : ((b.args.filter (fun p => decide (¬ p.1 ∈ E))).map Prod.fst).Sublist
        (b.args.map Prod.fst) :=
      (List.filter_sublist _).map Prod.fst
    exact List.count_eq_one_of_mem (hnd.sublist hsub) hmem2

/-- C4 witness: the structural equation instantiated at a two-field record
with one excluded key. -/
theorem c4_format_excludes_witness :
    recTwo.format [strL "y"] = '@' :: (recTwo.type ++ '{' :: (recTwo.id ++ ',' ::
        (((recTwo.args.filter (fun p => decide (¬ p.1 ∈ [strL "y"]))).map
          (fun p => fieldLine p.1 p.2)).flatten ++ ['\n', '}']))) :=
  (c4_format_excludes recTwo [strL "y"] (by decide)).1

/-! Facts about the DOI byte matcher. -/

theorem doiMatchHere_some_shape :
    ∀ (t m : List Nat), doiMatchHere t = some m →
      tokenShape m = true ∧ ∃ post, t = m ++ post := by
  intro t m h
  rcases t with _ | ⟨b1, _ | ⟨b2, _ | ⟨c, _ | ⟨d1, _ | ⟨d2, _ | ⟨d3, _ | ⟨d4, _ | ⟨sl, rest⟩⟩⟩⟩⟩⟩⟩⟩ <;>
    simp only [doiMatchHere] at h <;> try cases h
  split at h
  · split at h
    · cases h
    · cases h
      rename_i hcond hrun
      obtain ⟨h49, h48, hdot, hd1, hd2, hd3, hd4, h47⟩ := hcond
      subst h49
      subst h48
      subst h47
      constructor
      · have hall : List.all (List.takeWhile isDoiTailB rest) isDoiTailB = true :=
          List.all_eq_true.mpr (fun x hx => List.mem_takeWhile_imp hx)
        simp [tokenShape, hdot, hd1, hd2, hd3, hd4, List.isEmpty_iff, hrun, hall]
      · exact ⟨rest.dropWhile isDoiTailB, by
          simp [List.cons_append, List.takeWhile_append_dropWhile]⟩
  · cases h

theorem doiMatchHere_shapeStart (s : List Nat) (i : Nat) (m : List Nat)
    (h : doiMatchHere (s.drop i) = some m) : shapeStartB s i = true := by
  rcases hd : s.drop i with _ | ⟨b1, _ | ⟨b2, _ | ⟨c, _ | ⟨d1, _ | ⟨d2, _ | ⟨d3, _ | ⟨d4, _ |
      ⟨sl, rest⟩⟩⟩⟩⟩⟩⟩⟩ <;> rw [hd] at h <;> simp only [doiMatchHere] at h <;> try cases h
  split at h
  · split at h
    · cases h
    · rename_i hcond hrun
      obtain ⟨h49, h48, hdot, hd1, hd2, hd3, hd4, h47⟩ := hcond
      subst h49
      subst h48
      subst h47
      cases rest with
      | nil => simp [List.takeWhile] at hrun
      | cons x rest2 =>
        have hx : isDoiTailB x = true := by
          by_contra hxf
          rw [List.takeWhile_cons, if_neg (by simpa using hxf)] at hrun
          exact hrun rfl
        simp [shapeStartB, hd, hdot, hd1, hd2, hd3, hd4, hx]
  · cases h

theorem shapeStart_matchHere (s : List Nat) (i : Nat)
    (h : shapeStartB s i = true) : doiMatchHere (s.drop i) ≠ none := by
  intro hnone
  unfold shapeStartB at h
  split at h
  · rename_i b1 b2 c d1 d2 d3 d4 sl x rest2 heq
    simp only [Bool.and_eq_true, decide_eq_true_eq] at h
    obtain ⟨⟨⟨⟨⟨⟨⟨⟨h49, h48⟩, hdot⟩, hd1⟩, hd2⟩, hd3⟩, hd4⟩, h47⟩, hx⟩ := h
    rw [heq] at hnone
    subst h49
    subst h48
    subst h47
    rw [doiMatchHere] at hnone
    simp [hdot, hd1, hd2, hd3, hd4, List.takeWhile_cons, hx] at hnone
  · cases h

/-- C2 (confirmed): the DOI scan returns `none` exactly when no position
of the byte content matches the DOI pattern, and when some position
matches, it returns the match at the first matching position in scan
order. -/
theorem c2_first_match (s : List Nat) :
    (doiSearch s = none ↔ ∀ i, doiMatchHere (s.drop i) = none) ∧
    (∀ i m, (∀ j, j < i → doiMatchHere (s.drop j) = none) →
      doiMatchHere (s.drop i) = some m → doiSearch s = some m) :=
  ⟨scan1_none_iff doiMatchHere rfl s,
   fun i m h1 h2 => scan1_first doiMatchHere rfl s i m h1 h2⟩

/-- C2 witness: on content with two DOI-pattern matches the scan returns
the first one, starting at position 2. -/
theorem c2_first_match_witness : doiSearch exDoiTwo = some tokFirstDoi :=
  (c2_first_match exDoiTwo).2 2 tokFirstDoi (by decide) (by decide)

/-- C3 counterexample: the content `zz 10X1234/abc` contains no substring
of the spec-side DOI shape with a literal dot after `10`, yet the scanner
returns the token `10X1234/abc`, because the dot in the pattern `10.` is
an unescaped wildcard. -/
theorem c3_token_shape_counterexample :
    doiSearch exDoiWild = some tokWildDoi ∧ hasSpecDoiSub exDoiWild = false := by
  decide

/-- C3 (corrected): every returned token consists of the bytes `1`, `0`,
then one arbitrary non-newline byte, then exactly four digits, a slash and
a nonempty run of word, hyphen or dot bytes, and every token occurs inside
the content; conversely the scan returns a token exactly when some
position of the content starts a match of that wildcard shape. -/
theorem c3_token_shape (s : List Nat) :
    (∀ m, doiSearch s = some m → tokenShape m = true ∧ ∃ i post, s.drop i = m ++ post) ∧
    ((∀ i, shapeStartB s i = false) → doiSearch s = none) ∧
    (∀ i, shapeStartB s i = true → doiSearch s ≠ none) := by
  refine ⟨?_, ?_, ?_⟩
  · intro m hm
    obtain ⟨i, hi⟩ := scan1_some_ex doiMatchHere s m hm
    obtain ⟨hshape, post, hpost⟩ := doiMatchHere_some_shape _ m hi
    exact ⟨hshape, i, post, hpost⟩
  · intro h
    refine (scan1_none_iff doiMatchHere rfl s).mpr ?_
    intro i
    cases hmi : doiMatchHere (s.drop i) with
    | none => rfl
    | some m =>
      have := doiMatchHere_shapeStart s i m hmi
      rw [h i] at this
      cases this
  · intro i hi hnone
    exact shapeStart_matchHere s i hi ((scan1_none_iff doiMatchHere rfl s).mp hnone i)

/-- C3 witness: the amended theorem applied to the wildcard content, whose
position 3 starts a match of the code-side shape. -/
theorem c3_token_shape_witness : doiSearch exDoiWild ≠ none :=
  (c3_token_shape exDoiWild).2.2 3 (by decide)

/-! Computation of the field matcher on a canonical grammar record. -/

theorem lazyVal_end :
    ∀ (V acc : Str), (∀ c ∈ V, ¬ c = '}' ∧ ¬ c = '\n') → (acc ≠ [] ∨ V ≠ []) →
      lazyVal acc (V ++ ['}']) = some (acc.reverse ++ V, []) := by
  intro V
  induction V with
  | nil =>
    intro acc _ hne
    have hacc : acc ≠ [] := by
      rcases hne with h | h
      · exact h
      · exact absurd rfl h
    simp [lazyVal, hacc, (by decide : ¬ ('}' : Char) = '\n')]
  | cons x V2 ih =>
    intro acc h hne
    have hx := h x (List.mem_cons_self x V2)
    have hrec := ih (x :: acc) (fun c hc => h c (List.mem_cons_of_mem x hc))
      (Or.inl (by simp))
    simp only [List.cons_append]
    rw [lazyVal.eq_def]
    simp only
    rw [if_neg hx.2, if_neg (fun hcon => hx.1 hcon.1), hrec]
    simp [List.reverse_cons, List.append_assoc]

theorem lazyVal_sep :
    ∀ (V acc X : Str), (∀ c ∈ V, ¬ c = '}' ∧ ¬ c = '\n') → (acc ≠ [] ∨ V ≠ []) →
      lazyVal acc (V ++ '}' :: ',' :: ' ' :: X) = some (acc.reverse ++ V, X) := by
  intro V
  induction V with
  | nil =>
    intro acc X _ hne
    have hacc : acc ≠ [] := by
      rcases hne with h | h
      · exact h
      · exact absurd rfl h
    simp [lazyVal, hacc, (by decide : ¬ ('}' : Char) = '\n')]
  | cons x V2 ih =>
    intro acc X h hne
    have hx := h x (List.mem_cons_self x V2)
    have hrec := ih (x :: acc) X (fun c hc => h c (List.mem_cons_of_mem x hc))
      (Or.inl (by simp))
    simp only [List.cons_append]
    rw [lazyVal.eq_def]
    simp only
    rw [if_neg hx.2, if_neg (fun hcon => hx.1 hcon.1), hrec]
    simp [List.reverse_cons, List.append_assoc]

theorem keyMatchHere_mk_end (K V : Str)
    (hK1 : K ≠ []) (hK : ∀ c ∈ K, isTypeChar c = true)
    (hV1 : V ≠ []) (hV : ∀ c ∈ V, ¬ c = '}' ∧ ¬ c = '\n') :
    keyMatchHere (K ++ '=' :: '{' :: (V ++ ['}'])) = some (K, V, []) := by
  have h1 : (K ++ '=' :: '{' :: (V ++ ['}'])).takeWhile isTypeChar = K :=
    takeWhile_append_cons isTypeChar K '=' _ hK (by decide)
  have h2 : (K ++ '=' :: '{' :: (V ++ ['}'])).dropWhile isTypeChar = '=' :: '{' :: (V ++ ['}']) :=
    dropWhile_append_cons isTypeChar K '=' _ hK (by decide)
  have h3 := lazyVal_end V [] hV (Or.inr hV1)
  simp only [keyMatchHere, h1, h2]
  rw [if_neg hK1]
  simp [h3]

theorem keyMatchHere_mk_sep (K V X : Str)
    (hK1 : K ≠ []) (hK : ∀ c ∈ K, isTypeChar c = true)
    (hV1 : V ≠ []) (hV : ∀ c ∈ V, ¬ c = '}' ∧ ¬ c = '\n') :
    keyMatchHere (K ++ '=' :: '{' :: (V ++ '}' :: ',' :: ' ' :: X)) = some (K, V, X) := by
  have h1 : (K ++ '=' :: '{' :: (V ++ '}' :: ',' :: ' ' :: X)).takeWhile isTypeChar = K :=
    takeWhile_append_cons isTypeChar K '=' _ hK (by decide)
  have h2 : (K ++ '=' :: '{' :: (V ++ '}' :: ',' :: ' ' :: X)).dropWhile isTypeChar
      = '=' :: '{' :: (V ++ '}' :: ',' :: ' ' :: X) :=
    dropWhile_append_cons isTypeChar K '=' _ hK (by decide)
  have h3 := lazyVal_sep V [] X hV (Or.inr hV1)
  simp only [keyMatchHere, h1, h2]
  rw [if_neg hK1]
  simp [h3]

theorem sepJoin_cons2 (x y : Str) (l : List Str) :
    sepJoin (x :: y :: l) = x ++ ',' :: ' ' :: sepJoin (y :: l) := rfl

theorem mkField_ne_nil (k v : Str) : mkField k v ≠ [] := by
  simp [mkField]

theorem sepJoin_map_ne_nil (fs : List (Str × Str)) (h : fs ≠ []) :
    sepJoin (fs.map (fun p => mkField p.1 p.2)) ≠ [] := by
  cases fs with
  | nil => exact absurd rfl h
  | cons p l =>
    cases l with
    | nil => exact mkField_ne_nil p.1 p.2
    | cons q l2 =>
      simp only [List.map_cons, sepJoin_cons2]
      simp [mkField]

theorem mem_mkField (k v : Str) (c : Char) (hc : c ∈ mkField k v) :
    c ∈ k ∨ c = '=' ∨ c = '{' ∨ c ∈ v ∨ c = '}' := by
  simp only [mkField, List.mem_append, List.mem_cons, List.mem_singleton] at hc
  tauto

theorem mem_sepJoin :
    ∀ (l : List Str) (c : Char), c ∈ sepJoin l →
      (∃ x ∈ l, c ∈ x) ∨ c = ',' ∨ c = ' ' := by
  intro l
  induction l with
  | nil => intro c hc; cases hc
  | cons x l ih =>
    intro c hc
    cases l with
    | nil => exact Or.inl ⟨x, List.mem_cons_self x [], hc⟩
    | cons y l2 =>
      rw [sepJoin_cons2] at hc
      rcases List.mem_append.mp hc with h | h
      · exact Or.inl ⟨x, List.mem_cons_self _ _, h⟩
      · simp only [List.mem_cons] at h
        rcases h with h | h | h
        · exact Or.inr (Or.inl h)
        · exact Or.inr (Or.inr h)
        · rcases ih c h with ⟨z, hz, hcz⟩ | h2
          · exact Or.inl ⟨z, List.mem_cons_of_mem x hz, hcz⟩
          · exact Or.inr h2

theorem body_no_nl (fs : List (Str × Str))
    (hkey : ∀ p ∈ fs, ∀ c ∈ p.1, isTypeChar c = true)
    (hval : ∀ p ∈ fs, ∀ c ∈ p.2, ¬ c = '}' ∧ ¬ c = '\n') :
    ∀ c ∈ sepJoin (fs.map (fun p => mkField p.1 p.2)), notNl c = true := by
  intro c hc
  rcases mem_sepJoin _ c hc with ⟨x, hx, hcx⟩ | h | h
  · obtain ⟨p, hp, rfl⟩ := List.mem_map.mp hx
    rcases mem_mkField _ _ c hcx with h | h | h | h | h
    · have hne : ¬ c = '\n' := class_ne (hkey p hp c h) (by decide)
      simp [notNl, hne]
    · subst h; decide
    · subst h; decide
    · have hne := (hval p hp c h).2
      simp [notNl, hne]
    · subst h; decide
  · subst h; decide
  · subst h; decide

theorem argsOf_body (body : Str) (h : body ≠ []) :
    argsOf (body ++ ['}']) = some body := by
  have h1 : (body ++ ['}']).reverse = '}' :: body.reverse := by simp
  simp only [argsOf, h1, List.dropWhile_cons]
  simp [h]

theorem keysIterAux_nil : ∀ n, keysIterAux n [] = [] := by
  intro n
  cases n <;> rfl

theorem length_mkField (k v : Str) : (mkField k v).length = k.length + v.length + 3 := by
  simp [mkField]
  omega

theorem keysIterAux_fields :
    ∀ (fs : List (Str × Str)), fs ≠ [] →
      (∀ p ∈ fs, p.1 ≠ [] ∧ ∀ c ∈ p.1, isTypeChar c = true) →
      (∀ p ∈ fs, p.2 ≠ [] ∧ ∀ c ∈ p.2, ¬ c = '}' ∧ ¬ c = '\n') →
      ∀ fuel, (sepJoin (fs.map (fun p => mkField p.1 p.2))).length ≤ fuel →
        keysIterAux fuel (sepJoin (fs.map (fun p => mkField p.1 p.2))) = fs := by
  intro fs
  induction fs with
  | nil => intro h; exact absurd rfl h
  | cons p fs ih =>
    intro _ hkey hval fuel hlen
    have hp1 := hkey p (List.mem_cons_self p fs)
    have hp2 := hval p (List.mem_cons_self p fs)
    cases fs with
    | nil =>
      simp only [List.map_cons, List.map_nil] at hlen ⊢
      have hsj : sepJoin [mkField p.1 p.2] = mkField p.1 p.2 := rfl
      rw [hsj] at hlen ⊢
      cases fuel with
      | zero =>
        exfalso
        have := length_mkField p.1 p.2
        omega
      | succ n =>
        obtain ⟨c, r, hcr⟩ := List.exists_cons_of_ne_nil (mkField_ne_nil p.1 p.2)
        rw [hcr]
        simp only [keysIterAux]
        rw [← hcr]
        rw [show mkField p.1 p.2 = p.1 ++ '=' :: '{' :: (p.2 ++ ['}']) from rfl]
        rw [keyMatchHere_mk_end p.1 p.2 hp1.1 hp1.2 hp2.1 hp2.2]
        simp [keysIterAux_nil]
    | cons q fs2 =>
      have hsj : sepJoin ((p :: q :: fs2).map (fun p => mkField p.1 p.2))
          = mkField p.1 p.2 ++ ',' :: ' ' ::
              sepJoin ((q :: fs2).map (fun p => mkField p.1 p.2)) := rfl
      rw [hsj] at hlen ⊢
      cases fuel with
      | zero =>
        exfalso
        have := length_mkField p.1 p.2
        simp only [List.length_append, List.length_cons] at hlen
        omega
      | succ n =>
        have hne : mkField p.1 p.2 ++ ',' :: ' ' ::
            sepJoin ((q :: fs2).map (fun p => mkField p.1 p.2)) ≠ [] := by
          simp [mkField]
        obtain ⟨c, r, hcr⟩ := List.exists_cons_of_ne_nil hne
        rw [hcr]
        simp only [keysIterAux]
        rw [← hcr]
        have hnorm : mkField p.1 p.2 ++ ',' :: ' ' ::
            sepJoin ((q :: fs2).map (fun p => mkField p.1 p.2))
            = p.1 ++ '=' :: '{' :: (p.2 ++ '}' :: ',' :: ' ' ::
                sepJoin ((q :: fs2).map (fun p => mkField p.1 p.2))) := by
          simp [mkField, List.append_assoc]
        rw [hnorm,
          keyMatchHere_mk_sep p.1 p.2 _ hp1.1 hp1.2 hp2.1 hp2.2]
        have hR : (sepJoin ((q :: fs2).map (fun p => mkField p.1 p.2))).length ≤ n := by
          have := length_mkField p.1 p.2
          simp only [List.length_append, List.length_cons] at hlen
          omega
        have hrec := ih (by simp) (fun r hr => hkey r (List.mem_cons_of_mem p hr))
          (fun r hr => hval r (List.mem_cons_of_mem p hr)) n hR
        show (p.1, p.2) :: keysIterAux n
            (sepJoin ((q :: fs2).map (fun p => mkField p.1 p.2))) = p :: q :: fs2
        rw [hrec]

theorem buildDict_disjoint :
    ∀ (fs : List (Str × Str)) (d : List (Str × Str)),
      (∀ p ∈ fs, ∀ q ∈ d, ¬ q.1 = p.1) → (fs.map Prod.fst).Nodup →
      fs.foldl (fun d p => dictInsert d p.1 p.2) d = d ++ fs := by
  intro fs
  induction fs with
  | nil => intro d _ _; simp
  | cons p fs ih =>
    intro d hdisj hnd
    simp only [List.foldl_cons]
    have hany : d.any (fun q => decide (q.1 = p.1)) = false := by
      rw [List.any_eq_false]
      intro q hq
      simp only [decide_eq_true_eq]
      exact hdisj p (List.mem_cons_self p fs) q hq
    have hins : dictInsert d p.1 p.2 = d ++ [(p.1, p.2)] := by
      simp [dictInsert, hany]
    rw [hins]
    have hpfst : ¬ p.1 ∈ fs.map Prod.fst := by
      simp only [List.nodup_cons, List.map_cons] at hnd
      exact hnd.1
    have hrec := ih (d ++ [(p.1, p.2)]) (by
      intro r hr q hq
      rcases List.mem_append.mp hq with h | h
      · exact hdisj r (List.mem_cons_of_mem p hr) q h
      · simp only [List.mem_singleton] at h
        subst h
        intro he
        exact hpfst (he ▸ List.mem_map.mpr ⟨r, hr, rfl⟩))
      (by
        simp only [List.map_cons, List.nodup_cons] at hnd
        exact hnd.2)
    rw [hrec]
    simp [List.append_assoc]

theorem buildDict_eq_self (fs : List (Str × Str)) (hnd : (fs.map Prod.fst).Nodup) :
    buildDict fs = fs := by
  have h := buildDict_disjoint fs [] (by intro p _ q hq; cases hq) hnd
  simpa [buildDict] using h

/-- C5 (corrected): the parser accepts every record of the grammar written
on a single line whose field values contain neither a closing brace nor a
newline, and populates the field dict with every field and its full value
in order; records with multi-line values are rejected and a value whose
closing brace is followed by comma-space is truncated (see the
counterexample). -/
theorem c5_grammar_accepts (t k : Str) (fs : List (Str × Str))
    (ht1 : t ≠ []) (ht : ∀ c ∈ t, isTypeChar c = true)
    (hk1 : k ≠ []) (hk : ∀ c ∈ k, isIdChar c = true)
    (hfs : fs ≠ [])
    (hkey : ∀ p ∈ fs, p.1 ≠ [] ∧ ∀ c ∈ p.1, isTypeChar c = true)
    (hval : ∀ p ∈ fs, p.2 ≠ [] ∧ ∀ c ∈ p.2, ¬ c = '}' ∧ ¬ c = '\n')
    (hnd : (fs.map Prod.fst).Nodup) :
    BibEntry.parse (grammarRecord t k fs) = some ⟨t, k, fs⟩ := by
  have hbody := body_no_nl fs (fun p hp => (hkey p hp).2) (fun p hp => (hval p hp).2)
  have hbne : sepJoin (fs.map (fun p => mkField p.1 p.2)) ≠ [] := sepJoin_map_ne_nil fs hfs
  have htw : (sepJoin (fs.map (fun p => mkField p.1 p.2)) ++ ['}']).takeWhile notNl
      = sepJoin (fs.map (fun p => mkField p.1 p.2)) ++ ['}'] := by
    apply takeWhile_all
    intro c hc
    rcases List.mem_append.mp hc with h | h
    · exact hbody c h
    · simp only [List.mem_singleton] at h
      subst h
      decide
  have hmatch : partsMatchHere (grammarRecord t k fs)
      = some (t, k, sepJoin (fs.map (fun p => mkField p.1 p.2))) := by
    rw [show grammarRecord t k fs
        = '@' :: (t ++ '{' :: (k ++ ',' :: (' ' ::
            (sepJoin (fs.map (fun p => mkField p.1 p.2)) ++ ['}'])))) from rfl]
    rw [partsMatchHere_split t k _ ht hk]
    rw [if_neg ht1, if_neg hk1]
    simp [htw, argsOf_body _ hbne]
  simp only [BibEntry.parse]
  have hsearch : partsSearch (grammarRecord t k fs)
      = some (t, k, sepJoin (fs.map (fun p => mkField p.1 p.2))) := by
    rw [show grammarRecord t k fs
        = '@' :: (t ++ '{' :: (k ++ ',' :: (' ' ::
            (sepJoin (fs.map (fun p => mkField p.1 p.2)) ++ ['}'])))) from rfl] at hmatch ⊢
    simp only [partsSearch, scan1, hmatch]
  rw [hsearch]
  have hiter : keysFindIter (sepJoin (fs.map (fun p => mkField p.1 p.2))) = fs := by
    simp only [keysFindIter]
    exact keysIterAux_fields fs hfs hkey hval _ (le_refl _)
  simp [hiter, buildDict_eq_self fs hnd]

/-- C5 counterexample: the record with the multi-line value `A`-newline-`B`
conforms to the grammar of the spec but is rejected by the parser, and in
the record `@a{k, t={{A}, {B}}}` the nested-brace value `{A}, {B}` is
truncated to `{A` rather than populated in full. -/
theorem c5_grammar_counterexample :
    BibEntry.parse exMultiline = none ∧
    BibEntry.parse exNestedSep = some ⟨strL "a", strL "k", [(strL "t", strL "\x7bA")]⟩ := by
  decide

/-- C5 witness: the amended theorem applied to a concrete two-field
single-line record. -/
theorem c5_grammar_accepts_witness :
    BibEntry.parse (grammarRecord (strL "article") (strL "smith2020")
        [(strL "title", strL "A Study"), (strL "year", strL "2020")])
      = some ⟨strL "article", strL "smith2020",
          [(strL "title", strL "A Study"), (strL "year", strL "2020")]⟩ :=
  c5_grammar_accepts _ _ _ (by decide) (by decide) (by decide) (by decide) (by decide)
    (by decide) (by decide) (by decide)

/-! Converter discovery. -/

theorem pathJoin_ne_nil (d f : Str) (hf : f ≠ []) : pathJoin d f ≠ [] := by
  simp only [pathJoin]
  split_ifs <;> simp [hf]

theorem firstExe_some (isExe : Str → Bool) (prog : Str) :
    ∀ (dirs : List Str) (e : Str), firstExe isExe prog dirs = some e →
      ∃ pre d post, dirs = pre ++ d :: post ∧ e = pathJoin (stripQuotes d) prog ∧
        isExe e = true ∧ ∀ d2 ∈ pre, isExe (pathJoin (stripQuotes d2) prog) = false := by
  intro dirs
  induction dirs with
  | nil => intro e h; cases h
  | cons d rest ih =>
    intro e h
    simp only [firstExe] at h
    by_cases hd : isExe (pathJoin (stripQuotes d) prog) = true
    · rw [if_pos hd] at h
      cases h
      exact ⟨[], d, rest, rfl, rfl, hd, by intro d2 hd2; cases hd2⟩
    · have hdf : isExe (pathJoin (stripQuotes d) prog) = false := by
        cases hb : isExe (pathJoin (stripQuotes d) prog)
        · rfl
        · exact absurd hb hd
      rw [if_neg hd] at h
      obtain ⟨pre, d3, post, hsplit, he, hex, hpre⟩ := ih e h
      refine ⟨d :: pre, d3, post, by rw [hsplit]; rfl, he, hex, ?_⟩
      intro d2 hd2m
      rcases List.mem_cons.mp hd2m with rfl | hm
      · exact hdf
      · exact hpre d2 hm

theorem which_resolves (isExe : Str → Bool) (pv : Str) (prog e : Str)
    (hslash : prog.contains '/' = false) (h : which isExe pv prog = some e) :
    ∃ pre d post, splitSep ':' pv = pre ++ d :: post ∧
      e = pathJoin (stripQuotes d) prog ∧ isExe e = true ∧
      ∀ d2 ∈ pre, isExe (pathJoin (stripQuotes d2) prog) = false := by
  simp only [which, hslash] at h
  simp only [Bool.false_eq_true, if_false] at h
  exact firstExe_some isExe prog _ e h

theorem which_ne_nil (isExe : Str → Bool) (pv : Str) (prog : Str) (hprog : prog ≠ [])
    (e : Str) (h : which isExe pv prog = some e) : e ≠ [] := by
  simp only [which] at h
  split at h
  · split at h
    · cases h
      exact hprog
    · cases h
  · obtain ⟨pre, d, post, _, he, _, _⟩ := firstExe_some isExe prog _ e h
    rw [he]
    exact pathJoin_ne_nil _ _ hprog

/-- C7 (confirmed): converter discovery tries the descriptors in their
fixed preference order and selects the first whose program name resolves
through the search path, rewriting the program name to the resolved path;
when `pdftotext` resolves it is selected regardless of `pdftohtml`, and a
resolved program is the join of the first search-path directory holding an
executable regular file of that name. -/
theorem c7_discover (isExe : Str → Bool) (pv : Str) :
    (∀ p, which isExe pv (strL "pdftotext") = some p →
      pdfParserInit isExe pv
        = some (p :: [strL "-l", strL "1", strL "\x7bpdf\x7d", strL "-"])) ∧
    (which isExe pv (strL "pdftotext") = none →
      ∀ q, which isExe pv (strL "pdftohtml") = some q →
        pdfParserInit isExe pv
          = some (q :: [strL "-stdout", strL "-i", strL "-l", strL "1", strL "\x7bpdf\x7d"])) ∧
    (which isExe pv (strL "pdftotext") = none →
      which isExe pv (strL "pdftohtml") = none → pdfParserInit isExe pv = none) ∧
    (∀ prog e, prog.contains '/' = false → which isExe pv prog = some e →
      ∃ pre d post, splitSep ':' pv = pre ++ d :: post ∧
        e = pathJoin (stripQuotes d) prog ∧ isExe e = true ∧
        ∀ d2 ∈ pre, isExe (pathJoin (stripQuotes d2) prog) = false) := by
  refine ⟨?_, ?_, ?_, fun prog e h1 h2 => which_resolves isExe pv prog e h1 h2⟩
  · intro p hp
    have hne : p ≠ [] := which_ne_nil isExe pv (strL "pdftotext") (by decide) p hp
    simp [pdfParserInit, converters, initGo, hp, hne]
  · intro h1 q hq
    have hne : q ≠ [] := which_ne_nil isExe pv (strL "pdftohtml") (by decide) q hq
    simp [pdfParserInit, converters, initGo, h1, hq, hne]
  · intro h1 h2
    simp [pdfParserInit, converters, initGo, h1, h2]

/-- C7 witness: in an environment where `/usr/bin/pdftotext` and
`/bin/pdftohtml` are both executable, discovery selects `pdftotext` with
its resolved path. -/
theorem c7_discover_witness :
    pdfParserInit isExeEx pvEx
      = some (strL "/usr/bin/pdftotext" :: [strL "-l", strL "1", strL "\x7bpdf\x7d", strL "-"]) :=
  (c7_discover isExeEx pvEx).1 (strL "/usr/bin/pdftotext") (by decide)

/-! Orchestration loop. -/

/-- C8 (corrected): the per-file loop has no handler, so the first
extraction or lookup error aborts the whole run with that error and later
files are not processed; only the DOI-not-found outcome is reported and
lets the loop continue with the next file. -/
theorem c8_errors_abort :
    (∀ (eff : Effects) (excl : Option Str) (st : OutState) (f : Str) (rest : List Str)
        (e : Str), processFile eff excl st f = .error e →
        mainLoop eff excl st (f :: rest) = .error e) ∧
    (∀ (eff : Effects) (excl : Option Str) (st : OutState) (f : Str) (rest : List Str)
        (d : List Nat) (e : Str), eff.getDoi f = .ok (some d) → eff.getBibtex d = .error e →
        mainLoop eff excl st (f :: rest) = .error e) ∧
    (∀ (eff : Effects) (excl : Option Str) (st : OutState) (f : Str) (rest : List Str)
        (e : Str), eff.getDoi f = .error e → mainLoop eff excl st (f :: rest) = .error e) ∧
    (∀ (eff : Effects) (excl : Option Str) (st : OutState) (f : Str) (rest : List Str),
      eff.getDoi f = .ok none →
        mainLoop eff excl st (f :: rest)
          = mainLoop eff excl ⟨st.writes, st.console ++ [Msg.analyzing f, Msg.noDoi]⟩ rest) := by
  refine ⟨?_, ?_, ?_, ?_⟩
  · intro eff excl st f rest e h
    simp [mainLoop, h]
  · intro eff excl st f rest d e h1 h2
    have hpf : processFile eff excl st f = .error e := by
      simp [processFile, h1, h2]
    simp [mainLoop, hpf]
  · intro eff excl st f rest e h
    have hpf : processFile eff excl st f = .error e := by
      simp [processFile, h]
    simp [mainLoop, hpf]
  · intro eff excl st f rest h
    have hpf : processFile eff excl st f
        = .ok ⟨st.writes, st.console ++ [Msg.analyzing f, Msg.noDoi]⟩ := by
      simp [processFile, h]
    simp [mainLoop, hpf]

/-- C8 counterexample: with effects whose lookup fails, the run over two
files aborts with the lookup error instead of reporting it and continuing
to the second file. -/
theorem c8_errors_abort_counterexample :
    mainLoop effLookupFail (some []) ⟨[], []⟩ [fileA, fileB] = .error lookupFailMsg := rfl

/-- C8 witness: the second conjunct of the amended theorem applied to one
file whose lookup fails. -/
theorem c8_errors_abort_witness :
    mainLoop effLookupFail (some []) ⟨[], []⟩ [fileA] = .error lookupFailMsg :=
  c8_errors_abort.2.1 effLookupFail (some []) ⟨[], []⟩ fileA [] doiA lookupFailMsg rfl rfl

theorem gather_error_of_file (fs : FSEnv) :
    ∀ (locs : List Str) (loc : Str), loc ∈ locs → fs.isFile loc = true →
      gather fs locs = .error tolowerMsg := by
  intro locs
  induction locs with
  | nil => intro loc h; cases h
  | cons l rest ih =>
    intro loc hmem hfile
    rcases List.mem_cons.mp hmem with rfl | hmem2
    · simp [gather, hfile]
    · by_cases hl : fs.isFile l = true
      · simp [gather, hl]
      · have hl2 : fs.isFile l = false := by
          cases hb : fs.isFile l
          · rfl
          · exact absurd hb hl
        have hrec := ih loc hmem2 hfile
        by_cases hd : fs.isDir l = true
        · simp [gather, hl2, hd, hrec]
        · have hd2 : fs.isDir l = false := by
            cases hb : fs.isDir l
            · rfl
            · exact absurd hb hd
          simp [gather, hl2, hd2, hrec]

/-- C9 (confirmed): when a location argument names an existing regular
file, the gathering step evaluates `location.tolower()` and raises, so the
whole run fails with that error before any file is analyzed; only files
found by walking directory locations can ever reach the per-file loop. -/
theorem c9_file_location_crashes (isExe : Str → Bool) (pv : Str) (fs : FSEnv)
    (eff : Effects) (excl : Option Str) (locs : List Str) (loc : Str) (conv : List Str)
    (hconv : pdfParserInit isExe pv = some conv)
    (hmem : loc ∈ locs) (hfile : fs.isFile loc = true) :
    mainRun isExe pv fs eff excl locs = .error tolowerMsg := by
  simp [mainRun, hconv, gather_error_of_file fs locs loc hmem hfile]

/-- C9 witness: a single location that is a regular file makes the run
fail with the tolower error. -/
theorem c9_file_location_crashes_witness :
    mainRun isExeEx pvEx fsFileEx effOk (some []) [strL "paper.pdf"] = .error tolowerMsg :=
  c9_file_location_crashes isExeEx pvEx fsFileEx effOk (some []) [strL "paper.pdf"]
    (strL "paper.pdf")
    (strL "/usr/bin/pdftotext" :: [strL "-l", strL "1", strL "\x7bpdf\x7d", strL "-"])
    (by decide) (by decide) (by decide)

theorem processFile_none_writes (eff : Effects) (st st2 : OutState) (f : Str)
    (h : processFile eff none st f = .ok st2) : st2.writes = st.writes := by
  simp only [processFile] at h
  repeat' split at h
  all_goals cases h
  all_goals rfl

/-- C10 (confirmed): with the exclude option absent (`None`), the first
file whose DOI is found and whose record is fetched and parsed makes the
run fail at `args.exclude.split`, and no run with the exclude option
absent ever extends the output sink, so a successful emission needs the
exclude option to be a string. -/
theorem c10_exclude_none (eff : Effects) :
    (∀ (st : OutState) (f : Str) (rest : List Str) (d : List Nat) (txt : Str) (b : BibEntry),
      eff.getDoi f = .ok (some d) → eff.getBibtex d = .ok txt →
      BibEntry.parse txt = some b →
      mainLoop eff none st (f :: rest) = .error noneSplitMsg) ∧
    (∀ (st st2 : OutState) (files : List Str),
      mainLoop eff none st files = .ok st2 → st2.writes = st.writes) := by
  constructor
  · intro st f rest d txt b h1 h2 h3
    have hpf : processFile eff none st f = .error noneSplitMsg := by
      simp [processFile, h1, h2, h3]
    simp [mainLoop, hpf]
  · intro st st2 files
    induction files generalizing st with
    | nil =>
      intro h
      cases h
      rfl
    | cons f rest ih =>
      intro h
      simp only [mainLoop] at h
      cases hpf : processFile eff none st f with
      | error e => rw [hpf] at h; cases h
      | ok st1 =>
        rw [hpf] at h
        calc st2.writes = st1.writes := ih st1 h
        _ = st.writes := processFile_none_writes eff st st1 f hpf

/-- C10 witness: a run with the exclude option absent over one file whose
lookup and parse succeed fails with the split-on-None error. -/
theorem c10_exclude_none_witness :
    mainLoop effOk none ⟨[], []⟩ [fileA] = .error noneSplitMsg :=
  (c10_exclude_none effOk).1 ⟨[], []⟩ fileA [] doiA exRec1 recOne rfl rfl (by decide)
